import Mathlib

/-!
Strategy Execution Engine: a shallow embedding

A shallow embedding of the Strategy Execution Engine of the
`crypto-super-hub` repository (the engine code lives in the `Home`
component of the main page source).  JavaScript numbers are modelled by
`ℚ` (all engine arithmetic is field arithmetic plus `Math.floor` /
`Math.round` / `Math.max`, exact on the rationals), except for the
log-interpolation pricing function `priceAtRiskLog`, whose fractional
exponent is modelled over `ℝ` with real exponentiation.  ISO timestamp
strings are modelled by their epoch-millisecond value (`ℚ`); the
conversion `new Date(iso).getTime()` is the identity in the model.
The ambient React state that the engine closures capture (`riskValue`,
`getPriceAtRisk`, `Date.now()`) is passed explicitly as an `EngineCtx`.
-/

namespace CryptoSuperHub

/-- The `mode` field of `SavedStrategy`: buy-side vs sell-side. -/
inductive Mode
  | accumulate
  | distribute
deriving DecidableEq

/-- The `strategyType` field of `SavedStrategy` (`"fixed" | "dynamic"`). -/
inductive StrategyType
  | fixed
  | dynamic
deriving DecidableEq

/-- The `type` field of `SavedStrategy` (`"fixed" | "scaled"`). -/
inductive SType
  | fixed
  | scaled
deriving DecidableEq

/-- The `frequency` field of `SavedStrategy`. -/
inductive Frequency
  | daily
  | weekly
  | fortnightly
  | monthly
deriving DecidableEq

/-- Record `MockExecution`: one simulated fill, as in the source. -/
structure MockExecution where
  id : String
  date : String
  riskAtExecution : ℚ
  amountFiat : ℚ
  btcAmount : ℚ
  pricePerBtc : ℚ
deriving DecidableEq

/-- Record `SavedStrategy`: the persisted strategy record, restricted to the
fields the engine, the level planner and the lifecycle rules read.
Optional fields of the TypeScript type are `Option`s.  Timestamps
(`nextExecutionAt`, `lastExecutionAt`) are epoch milliseconds. -/
structure SavedStrategy where
  id : String
  mode : Mode
  strategyType : StrategyType
  type : SType
  frequency : Option Frequency
  amountPerPurchase : ℚ
  btcHoldings : Option ℚ
  active : Bool
  nextExecutionAt : Option ℚ
  lastExecutionAt : Option ℚ
  activeRiskStart : Option ℚ
  activeRiskEnd : Option ℚ
  dynamicStepInterval : Option ℚ
  dynamicMultiplierPct : Option ℚ
  executions : Option (List MockExecution)
  asset_id : Option String
deriving DecidableEq

/-- JavaScript `Math.round`: `⌊x + 1/2⌋` (round half toward `+∞`). -/
def jsRound (x : ℚ) : ℚ := (⌊x + 1 / 2⌋ : ℤ)

/-- Sum of `btcAmount` over a list of executions
(`list.reduce((s, e) => s + e.btcAmount, 0)`). -/
def sumBtc (l : List MockExecution) : ℚ :=
  l.foldl (fun s e => s + e.btcAmount) 0

/-- Source `getActiveRiskBounds`: normalized active risk bounds, clamped to
`[0,100]`, with the mode-dependent defaults of the source.  Returns
`(minR, maxR)`. -/
def getActiveRiskBounds (p : SavedStrategy) : ℚ × ℚ :=
  let start := max 0 (min 100
    (p.activeRiskStart.getD (if p.mode = Mode.accumulate then 80 else 50)))
  let stop := max 0 (min 100
    (p.activeRiskEnd.getD (if p.mode = Mode.accumulate then 0 else 100)))
  (min start stop, max start stop)

/-- The descending level loop `for (let r = maxR; r >= minR; r -= step)`.
For `0 < step` the loop pushes `maxR - k*step` for
`k = 0, …, ⌊(maxR - minR)/step⌋`; for `maxR < minR` it pushes nothing.
(For `step ≤ 0` with `minR ≤ maxR` the source loop does not terminate;
the model returns `[]` there, and every theorem below that touches
levels assumes a positive step.) -/
def levelsDown (maxR minR step : ℚ) : List ℚ :=
  if 0 < step ∧ minR ≤ maxR then
    (List.range (⌊(maxR - minR) / step⌋.toNat + 1)).map
      (fun k => maxR - k * step)
  else []

/-- The ascending level loop `for (let r = minR; r <= maxR; r += step)`. -/
def levelsUp (minR maxR step : ℚ) : List ℚ :=
  if 0 < step ∧ minR ≤ maxR then
    (List.range (⌊(maxR - minR) / step⌋.toNat + 1)).map
      (fun k => minR + k * step)
  else []

/-- Source `getStrategyLevels`: levels generated from the active risk range and
the step (default 5).  Accumulate: `maxR` down to `minR`; distribute:
`minR` up to `maxR`; `[minR]` when the generated list is empty. -/
def getStrategyLevels (p : SavedStrategy) : List ℚ :=
  let b := getActiveRiskBounds p
  let step := p.dynamicStepInterval.getD 5
  let raw :=
    if p.mode = Mode.accumulate then levelsDown b.2 b.1 step
    else levelsUp b.1 b.2 step
  if raw.isEmpty then [b.1] else raw

/-- Source `getAmountAtRisk`: order size at a risk level.  Geometric sizing
applies only when `strategyType === "dynamic"` and both
`dynamicStepInterval` and `dynamicMultiplierPct` are present; otherwise
the flat `amountPerPurchase`. -/
def getAmountAtRisk (p : SavedStrategy) (risk : ℚ) : ℚ :=
  let b := getActiveRiskBounds p
  match p.mode with
  | Mode.accumulate =>
    match p.strategyType, p.dynamicStepInterval, p.dynamicMultiplierPct with
    | StrategyType.dynamic, some step, some mult =>
        let steps := (max 0 ⌊(b.2 - risk) / step⌋).toNat
        jsRound (p.amountPerPurchase * (1 + mult / 100) ^ steps)
    | _, _, _ => p.amountPerPurchase
  | Mode.distribute =>
    match p.strategyType, p.dynamicStepInterval, p.dynamicMultiplierPct with
    | StrategyType.dynamic, some step, some mult =>
        let steps := (max 0 ⌊(risk - b.1) / step⌋).toNat
        jsRound (p.amountPerPurchase * (1 + mult / 100) ^ steps)
    | _, _, _ => p.amountPerPurchase

/-- Source `getFrequencyIntervalMs`, in milliseconds (default: weekly). -/
def getFrequencyIntervalMs (freq : Option Frequency) : ℚ :=
  match freq with
  | some Frequency.daily => 24 * 60 * 60 * 1000
  | some Frequency.weekly => 7 * 24 * 60 * 60 * 1000
  | some Frequency.fortnightly => 14 * 24 * 60 * 60 * 1000
  | some Frequency.monthly => 30 * 24 * 60 * 60 * 1000
  | none => 7 * 24 * 60 * 60 * 1000

/-- Source `priceAtRiskLog`: log interpolation
`floor * (ceiling/floor)^(risk/100)`, with the source's guard
`if (floor <= 0 || ceiling <= 0) return floor || ceiling || 0`. -/
noncomputable def priceAtRiskLog (floor ceiling risk : ℝ) : ℝ :=
  if floor ≤ 0 ∨ ceiling ≤ 0 then
    (if floor ≠ 0 then floor else if ceiling ≠ 0 then ceiling else 0)
  else floor * (ceiling / floor) ^ (risk / 100)

/-- The ambient state captured by the engine closures: the current risk
score, the pricing closure `getPriceAtRisk` (taking an asset id and a
risk value), `Date.now()` in milliseconds, and the ISO string
`new Date().toISOString()`. -/
structure EngineCtx where
  riskValue : ℚ
  priceAt : String → ℚ → ℚ
  now : ℚ
  nowIso : String

/-- The expression `levels.reduce((a, b) => Math.abs(a - r) <= Math.abs(b - r) ? a : b)`:
the level nearest to `r` (first wins on ties).  The `[]` case is
unreachable: `getStrategyLevels` never returns an empty list. -/
def closestLevel (levels : List ℚ) (r : ℚ) : ℚ :=
  match levels with
  | [] => 0
  | a :: rest => rest.foldl (fun acc b => if |acc - r| ≤ |b - r| then acc else b) a

/-- A level is "filled" when some prior execution's nearest level is it
(the keys of the source's `executedByLevel` map). -/
def isFilled (levels : List ℚ) (execs : List MockExecution) (L : ℚ) : Bool :=
  execs.any (fun ex => decide (closestLevel levels ex.riskAtExecution = L))

/-- The execution record Pass A appends when a fixed strategy fires:
recorded at the current risk and the current price, with the asset
amount guarded against a non-positive price. -/
def mkFreqExec (ctx : EngineCtx) (p : SavedStrategy) : MockExecution :=
  let price := ctx.priceAt (p.asset_id.getD "BTC") ctx.riskValue
  { id := "exec-" ++ toString ctx.now ++ "-" ++ p.id
    date := ctx.nowIso.take 10
    riskAtExecution := ctx.riskValue
    amountFiat := p.amountPerPurchase
    btcAmount := if 0 < price then p.amountPerPurchase / price else 0
    pricePerBtc := price }

/-- Pass A — `frequencyEngine`, per strategy (`prev.map` body). -/
def frequencyEngineStep (ctx : EngineCtx) (p : SavedStrategy) : SavedStrategy :=
  if p.type ≠ SType.fixed then p else
  let b := getActiveRiskBounds p
  let inActiveRange := b.1 ≤ ctx.riskValue ∧ ctx.riskValue ≤ b.2
  if ¬ p.active ∨ p.frequency = none then p
  else if ¬ inActiveRange then
    (if p.nextExecutionAt ≠ none then { p with nextExecutionAt := none } else p)
  else
    let shouldRun : Bool :=
      match p.nextExecutionAt with
      | none => true
      | some t => decide (t ≤ ctx.now)
    if ¬ shouldRun then p
    else
      let price := ctx.priceAt (p.asset_id.getD "BTC") ctx.riskValue
      let skipDistribute :=
        p.mode = Mode.distribute ∧
          max 0 (p.btcHoldings.getD 0 - sumBtc (p.executions.getD [])) <
            (if 0 < price then p.amountPerPurchase / price else 0)
      if skipDistribute then p
      else
        { p with
            lastExecutionAt := some ctx.now
            nextExecutionAt := some (ctx.now + getFrequencyIntervalMs p.frequency)
            executions := some (p.executions.getD [] ++ [mkFreqExec ctx p]) }

/-- Pass A — `frequencyEngine` over the strategy list.  The source's
`changed` flag only decides whether to return the mapped array or the
(extensionally equal) original; value-wise the engine is a `map`. -/
def frequencyEngine (ctx : EngineCtx) (prev : List SavedStrategy) :
    List SavedStrategy :=
  prev.map (frequencyEngineStep ctx)

/-- The execution record one loop iteration of `levelCrossingEngine`
builds for a crossed level: fiat amount from the sizing function, price
at the level itself, asset amount guarded against a non-positive price. -/
def mkLevelExec (ctx : EngineCtx) (p : SavedStrategy) (level : ℚ) :
    MockExecution :=
  let amountFiat := getAmountAtRisk p level
  let price := ctx.priceAt (p.asset_id.getD "BTC") level
  { id := "exec-" ++ toString ctx.now ++ "-" ++ p.id ++ "-" ++ toString level
    date := ctx.nowIso.take 10
    riskAtExecution := level
    amountFiat := amountFiat
    btcAmount := if 0 < price then amountFiat / price else 0
    pricePerBtc := price }

/-- The `for (const level of crossedNotExecuted)` loop of
`levelCrossingEngine`, building `newExecutions`.  The distribute branch
recomputes the prior-executions sum each iteration (it is constant),
adds the accumulator's sum, and `break`s when
`Math.max(0, cap - soldSoFar - btcAmount) < 0`. -/
def buildNewExecs (ctx : EngineCtx) (p : SavedStrategy)
    (acc : List MockExecution) : List ℚ → List MockExecution
  | [] => acc
  | level :: rest =>
    let newEx := mkLevelExec ctx p level
    if p.mode = Mode.distribute ∧
        max 0 (p.btcHoldings.getD 0 -
          (sumBtc (p.executions.getD []) + sumBtc acc) - newEx.btcAmount) < 0
    then acc
    else buildNewExecs ctx p (acc ++ [newEx]) rest

/-- The `crossedNotExecuted` list of Pass B: planned levels the current
risk has crossed (at or below for accumulate, at or above for
distribute) that no prior execution fills. -/
def lceCrossed (ctx : EngineCtx) (p : SavedStrategy) : List ℚ :=
  let levels := getStrategyLevels p
  let execs := p.executions.getD []
  if p.mode = Mode.accumulate then
    levels.filter (fun L => decide (ctx.riskValue ≤ L) && ! isFilled levels execs L)
  else
    levels.filter (fun L => decide (L ≤ ctx.riskValue) && ! isFilled levels execs L)

/-- Pass B — `levelCrossingEngine`, per strategy (`prev.map` body). -/
def levelCrossingEngineStep (ctx : EngineCtx) (p : SavedStrategy) :
    SavedStrategy :=
  if p.type ≠ SType.scaled ∨ ¬ p.active then p else
  let b := getActiveRiskBounds p
  if ¬ (b.1 ≤ ctx.riskValue ∧ ctx.riskValue ≤ b.2) then p else
  let crossed := lceCrossed ctx p
  if crossed.isEmpty then p else
  if p.mode = Mode.distribute ∧
      max 0 (p.btcHoldings.getD 0 - sumBtc (p.executions.getD [])) ≤ 0
  then p else
  let newExecs := buildNewExecs ctx p [] crossed
  if newExecs.isEmpty then p
  else { p with executions := some (p.executions.getD [] ++ newExecs) }

/-- Pass B — `levelCrossingEngine` over the strategy list. -/
def levelCrossingEngine (ctx : EngineCtx) (prev : List SavedStrategy) :
    List SavedStrategy :=
  prev.map (levelCrossingEngineStep ctx)

/-- One engine tick: Pass A then Pass B. -/
def tick (ctx : EngineCtx) (prev : List SavedStrategy) : List SavedStrategy :=
  levelCrossingEngine ctx (frequencyEngine ctx prev)

/-- The auto-deactivation `useEffect` over `savedPlans`, per strategy:
an active distribute strategy whose remaining holdings
`Math.max(0, (btcHoldings ?? 0) - sold)` are `≤ 0` is deactivated. -/
def autoDeactivateStep (p : SavedStrategy) : SavedStrategy :=
  if p.mode ≠ Mode.distribute ∨ ¬ p.active then p else
  if max 0 (p.btcHoldings.getD 0 - sumBtc (p.executions.getD [])) ≤ 0 then
    { p with active := false }
  else p

/-! Helper lemmas. -/

/-- The distribute `break` guard of the level loop tests
`Math.max(0, …) < 0`, which can never hold, so the loop never breaks
and appends one execution per crossed level. -/
theorem buildNewExecs_eq_append (ctx : EngineCtx) (p : SavedStrategy)
    (ls : List ℚ) : ∀ acc,
      buildNewExecs ctx p acc ls = acc ++ ls.map (mkLevelExec ctx p) := by
  induction ls with
  | nil => intro acc; simp [buildNewExecs]
  | cons level rest ih =>
    intro acc
    have hcond : ¬ (p.mode = Mode.distribute ∧
        max 0 (p.btcHoldings.getD 0 -
          (sumBtc (p.executions.getD []) + sumBtc acc) -
            (mkLevelExec ctx p level).btcAmount) < 0) := by
      rintro ⟨-, h⟩
      exact absurd h (not_lt.2 (le_max_left 0 _))
    simp only [buildNewExecs, if_neg hcond, ih]
    simp

/-- The fold underlying `closestLevel` returns an element at minimal
distance from `r` among the initial element and the folded list. -/
theorem closestLevel_foldl_le (r : ℚ) (rest : List ℚ) : ∀ a : ℚ,
    |rest.foldl (fun acc b => if |acc - r| ≤ |b - r| then acc else b) a - r| ≤ |a - r| ∧
    ∀ x ∈ rest,
      |rest.foldl (fun acc b => if |acc - r| ≤ |b - r| then acc else b) a - r| ≤ |x - r| := by
  induction rest with
  | nil => intro a; exact ⟨le_refl _, by simp⟩
  | cons b rest ih =>
    intro a
    simp only [List.foldl_cons]
    by_cases hab : |a - r| ≤ |b - r|
    · rw [if_pos hab]
      refine ⟨(ih a).1, ?_⟩
      intro x hx
      rcases List.mem_cons.1 hx with h | hx
      · rw [h]; exact le_trans (ih a).1 hab
      · exact (ih a).2 x hx
    · rw [if_neg hab]
      have hba : |b - r| ≤ |a - r| := le_of_lt (lt_of_not_le hab)
      refine ⟨le_trans (ih b).1 hba, ?_⟩
      intro x hx
      rcases List.mem_cons.1 hx with h | hx
      · rw [h]; exact (ih b).1
      · exact (ih b).2 x hx

/-- Nearest-level matching picks a level no farther from `r` than any
member of the list. -/
theorem closestLevel_mem_le (levels : List ℚ) (r x : ℚ) (hx : x ∈ levels) :
    |closestLevel levels r - r| ≤ |x - r| := by
  cases levels with
  | nil => cases hx
  | cons a rest =>
    rcases List.mem_cons.1 hx with rfl | hx
    · exact (closestLevel_foldl_le r rest x).1
    · exact (closestLevel_foldl_le r rest a).2 x hx

/-- An execution recorded exactly at a planned level matches that level. -/
theorem closestLevel_self (levels : List ℚ) (L : ℚ) (hL : L ∈ levels) :
    closestLevel levels L = L := by
  have h0 : |closestLevel levels L - L| ≤ 0 := by
    simpa using closestLevel_mem_le levels L L hL
  have h1 : closestLevel levels L - L = 0 :=
    abs_eq_zero.mp (le_antisymm h0 (abs_nonneg _))
  linarith

/-- The execution-record invariant of the spec: asset amount is fiat
amount over price when the price is positive, `0` otherwise. -/
abbrev execPriceInv (e : MockExecution) : Prop :=
  e.btcAmount = if 0 < e.pricePerBtc then e.amountFiat / e.pricePerBtc else 0

/-- Executions built by the level loop satisfy the price invariant. -/
theorem mkLevelExec_inv (ctx : EngineCtx) (p : SavedStrategy) (level : ℚ) :
    execPriceInv (mkLevelExec ctx p level) := rfl

/-- Executions built by the level loop record the level itself. -/
theorem mkLevelExec_risk (ctx : EngineCtx) (p : SavedStrategy) (level : ℚ) :
    (mkLevelExec ctx p level).riskAtExecution = level := rfl

/-! Concrete sample data used by counterexamples and witnesses. -/

/-- A scaled accumulate strategy with `amountPerOrder = 1000`,
`levelGrowthPct = 25`, range `[0,100]`, `step = 25` (the P4 instance). -/
def geometricStrategy : SavedStrategy :=
  { id := "geo", mode := Mode.accumulate, strategyType := StrategyType.dynamic,
    type := SType.scaled, frequency := none, amountPerPurchase := 1000,
    btcHoldings := none, active := true, nextExecutionAt := none,
    lastExecutionAt := none, activeRiskStart := some 100, activeRiskEnd := some 0,
    dynamicStepInterval := some 25, dynamicMultiplierPct := some 25,
    executions := some [], asset_id := some "BTC" }

/-- An active distribute strategy with a zero asset cap and no executions. -/
def zeroCapStrategy : SavedStrategy :=
  { id := "zc", mode := Mode.distribute, strategyType := StrategyType.fixed,
    type := SType.fixed, frequency := some Frequency.weekly,
    amountPerPurchase := 100, btcHoldings := some 0, active := true,
    nextExecutionAt := none, lastExecutionAt := none,
    activeRiskStart := some 50, activeRiskEnd := some 100,
    dynamicStepInterval := none, dynamicMultiplierPct := none,
    executions := some [], asset_id := some "BTC" }

/-- An active distribute strategy whose single execution has sold the
whole cap. -/
def soldOutStrategy : SavedStrategy :=
  { id := "so", mode := Mode.distribute, strategyType := StrategyType.fixed,
    type := SType.fixed, frequency := some Frequency.weekly,
    amountPerPurchase := 100, btcHoldings := some (1/100), active := true,
    nextExecutionAt := none, lastExecutionAt := none,
    activeRiskStart := some 50, activeRiskEnd := some 100,
    dynamicStepInterval := none, dynamicMultiplierPct := none,
    executions := some [
      { id := "e1", date := "2026-10-01", riskAtExecution := 60,
        amountFiat := 100, btcAmount := 1/100, pricePerBtc := 10000 }],
    asset_id := some "BTC" }

/-! Claim theorems. -/

/-- C6: for positive floor and ceiling, the log-interpolation branch of
the Price-at-Risk model returns the floor at risk 0 and the ceiling at
risk 100. -/
theorem priceAtRiskLog_endpoints (f c : ℝ) (hf : 0 < f) (hc : 0 < c) :
    priceAtRiskLog f c 0 = f ∧ priceAtRiskLog f c 100 = c := by
  have hcond : ¬ (f ≤ 0 ∨ c ≤ 0) := by push_neg; exact ⟨hf, hc⟩
  constructor
  · rw [priceAtRiskLog, if_neg hcond, show (0:ℝ) / 100 = 0 by norm_num,
      Real.rpow_zero, mul_one]
  · rw [priceAtRiskLog, if_neg hcond, show (100:ℝ) / 100 = 1 by norm_num,
      Real.rpow_one, mul_comm, div_mul_cancel₀ c (ne_of_gt hf)]

/-- Witness for C6 at floor 2, ceiling 3. -/
theorem priceAtRiskLog_endpoints_witness :
    (0:ℝ) < 2 ∧ (0:ℝ) < 3 ∧ priceAtRiskLog 2 3 0 = 2 ∧ priceAtRiskLog 2 3 100 = 3 :=
  ⟨by norm_num, by norm_num,
   (priceAtRiskLog_endpoints 2 3 (by norm_num) (by norm_num)).1,
   (priceAtRiskLog_endpoints 2 3 (by norm_num) (by norm_num)).2⟩

/-- C2 counterexample: an active distribute strategy with asset cap `0`
and no executions at all is auto-deactivated by the state update,
although the claim says a cap of `0` means uncapped and such a strategy
is never auto-deactivated. -/
theorem autoDeactivate_zero_cap_counterexample :
    zeroCapStrategy.mode = Mode.distribute ∧
    zeroCapStrategy.btcHoldings = some 0 ∧
    zeroCapStrategy.executions = some [] ∧
    zeroCapStrategy.active = true ∧
    (autoDeactivateStep zeroCapStrategy).active = false := by
  refine ⟨rfl, rfl, rfl, rfl, ?_⟩
  simp [autoDeactivateStep, zeroCapStrategy, sumBtc]

/-- C2 (amended): after a state update, any distribute strategy whose
executions' total sold asset is at least its cap (an absent cap counting
as `0`) has `active = false`; in particular a cap of `0` or absent does
not mean uncapped — such a strategy is deactivated at once. -/
theorem autoDeactivate_forces_inactive (p : SavedStrategy)
    (hmode : p.mode = Mode.distribute)
    (hsum : p.btcHoldings.getD 0 ≤ sumBtc (p.executions.getD [])) :
    (autoDeactivateStep p).active = false := by
  unfold autoDeactivateStep
  split_ifs with h1 h2
  · rcases h1 with h | h
    · exact absurd hmode h
    · simpa using h
  · rfl
  · exact absurd (max_le le_rfl (sub_nonpos.2 hsum)) h2

/-- Witness for C2 (amended): a sold-out distribute strategy is
deactivated. -/
theorem autoDeactivate_forces_inactive_witness :
    soldOutStrategy.mode = Mode.distribute ∧
    soldOutStrategy.btcHoldings.getD 0 ≤ sumBtc (soldOutStrategy.executions.getD []) ∧
    (autoDeactivateStep soldOutStrategy).active = false :=
  ⟨rfl, by norm_num [soldOutStrategy, sumBtc],
   autoDeactivate_forces_inactive soldOutStrategy rfl
     (by norm_num [soldOutStrategy, sumBtc])⟩

/-- C3 counterexample: at level 50 the P4 strategy's order size is
`round(1000 * 1.25^2) = round(1562.5) = 1563` (JavaScript `Math.round`
rounds half up), not the claimed `1562`. -/
theorem getAmountAtRisk_half_round_counterexample :
    getAmountAtRisk geometricStrategy 50 = 1563 ∧ (1563 : ℚ) ≠ 1562 := by
  constructor
  · norm_num [getAmountAtRisk, geometricStrategy, getActiveRiskBounds, jsRound,
      show Int.toNat 2 = 2 from rfl]
  · norm_num

/-- C3 (amended): the P4 strategy's order sizes at levels
`100, 75, 50, 25, 0` are `1000, 1250, 1563, 1953, 2441` (half-up
rounding, so `1563` at level 50, not `1562`); in general, for a scaled
strategy and a level on the accumulation (resp. distribution) side of
the first level, the size is
`⌊amountPerOrder * (1 + growthPct/100) ^ ⌊|level - firstLevel| / step⌋ + 1/2⌋`
with `firstLevel = maxR` for accumulate and `minR` for distribute. -/
theorem getAmountAtRisk_geometric_sizing :
    (([100, 75, 50, 25, 0] : List ℚ).map (getAmountAtRisk geometricStrategy) =
      [1000, 1250, 1563, 1953, 2441]) ∧
    (∀ (p : SavedStrategy) (level step g : ℚ), p.mode = Mode.accumulate →
      p.strategyType = StrategyType.dynamic →
      p.dynamicStepInterval = some step → p.dynamicMultiplierPct = some g →
      0 < step → level ≤ (getActiveRiskBounds p).2 →
      getAmountAtRisk p level =
        jsRound (p.amountPerPurchase *
          (1 + g / 100) ^ ⌊|level - (getActiveRiskBounds p).2| / step⌋.toNat)) ∧
    (∀ (p : SavedStrategy) (level step g : ℚ), p.mode = Mode.distribute →
      p.strategyType = StrategyType.dynamic →
      p.dynamicStepInterval = some step → p.dynamicMultiplierPct = some g →
      0 < step → (getActiveRiskBounds p).1 ≤ level →
      getAmountAtRisk p level =
        jsRound (p.amountPerPurchase *
          (1 + g / 100) ^ ⌊|level - (getActiveRiskBounds p).1| / step⌋.toNat)) := by
  refine ⟨by norm_num [getAmountAtRisk, geometricStrategy, getActiveRiskBounds, jsRound,
    show Int.toNat 2 = 2 from rfl, show Int.toNat 3 = 3 from rfl,
    show Int.toNat 4 = 4 from rfl], ?_, ?_⟩
  · intro p level step g hmode hst hstep hg hpos hle
    simp only [getAmountAtRisk, hmode, hst, hstep, hg]
    rw [abs_sub_comm, abs_of_nonneg (sub_nonneg.2 hle),
      max_eq_right (Int.floor_nonneg.2 (div_nonneg (sub_nonneg.2 hle) hpos.le))]
  · intro p level step g hmode hst hstep hg hpos hle
    simp only [getAmountAtRisk, hmode, hst, hstep, hg]
    rw [abs_of_nonneg (sub_nonneg.2 hle),
      max_eq_right (Int.floor_nonneg.2 (div_nonneg (sub_nonneg.2 hle) hpos.le))]

/-- Witness for C3 (amended) at the P4 strategy and level 50. -/
theorem getAmountAtRisk_geometric_sizing_witness :
    (0:ℚ) < 25 ∧ (50:ℚ) ≤ (getActiveRiskBounds geometricStrategy).2 ∧
    getAmountAtRisk geometricStrategy 50 =
      jsRound (geometricStrategy.amountPerPurchase *
        (1 + 25 / 100) ^ (⌊|(50:ℚ) - (getActiveRiskBounds geometricStrategy).2| / 25⌋.toNat)) :=
  ⟨by norm_num, by norm_num [getActiveRiskBounds, geometricStrategy],
   getAmountAtRisk_geometric_sizing.2.1 geometricStrategy 50 25 25 rfl rfl rfl rfl
     (by norm_num) (by norm_num [getActiveRiskBounds, geometricStrategy])⟩

/-- Updating only `nextExecutionAt` does not change the active bounds. -/
theorem getActiveRiskBounds_update_next (p : SavedStrategy) (v : Option ℚ) :
    getActiveRiskBounds { p with nextExecutionAt := v } = getActiveRiskBounds p := rfl

/-- Pass A on a fixed strategy whose `nextExecutionAt` is strictly in the
future: either the strategy is returned unchanged, or — only when it is
active, has a frequency, and is out of range — its `nextExecutionAt` is
cleared and nothing else changes. -/
theorem freq_step_future (ctx : EngineCtx) (p : SavedStrategy) (t : ℚ)
    (hfix : p.type = SType.fixed) (hne : p.nextExecutionAt = some t)
    (hfut : ctx.now < t) :
    frequencyEngineStep ctx p = p ∨
    (¬ ((getActiveRiskBounds p).1 ≤ ctx.riskValue ∧
        ctx.riskValue ≤ (getActiveRiskBounds p).2) ∧
     p.active = true ∧ p.frequency ≠ none ∧
     frequencyEngineStep ctx p = { p with nextExecutionAt := none }) := by
  by_cases hskip : ¬ p.active = true ∨ p.frequency = none
  · left
    rcases hskip with h | h
    · simp [frequencyEngineStep, hfix, h]
    · simp [frequencyEngineStep, hfix, h]
  · push_neg at hskip
    obtain ⟨hact, hfreq⟩ := hskip
    by_cases hr : (getActiveRiskBounds p).1 ≤ ctx.riskValue ∧
        ctx.riskValue ≤ (getActiveRiskBounds p).2
    · left
      simp [frequencyEngineStep, hfix, hact, hfreq, hr, hne, not_le.mpr hfut]
    · right
      exact ⟨hr, hact, hfreq, by simp [frequencyEngineStep, hfix, hact, hfreq, hr, hne]⟩

/-- The tick context used by out-of-range samples: risk 10, `now = 0`. -/
def outOfRangeCtx : EngineCtx :=
  { riskValue := 10, priceAt := fun _ _ => 100, now := 0,
    nowIso := "2026-10-11T00:00:00.000Z" }

/-- An inactive fixed strategy, out of range at risk 10, still scheduled. -/
def pausedOutOfRangeStrategy : SavedStrategy :=
  { id := "p4", mode := Mode.accumulate, strategyType := StrategyType.fixed,
    type := SType.fixed, frequency := some Frequency.weekly,
    amountPerPurchase := 100, btcHoldings := none, active := false,
    nextExecutionAt := some 5, lastExecutionAt := none,
    activeRiskStart := some 60, activeRiskEnd := some 50,
    dynamicStepInterval := none, dynamicMultiplierPct := none,
    executions := some [], asset_id := some "BTC" }

/-- An active fixed strategy, out of range at risk 10, still scheduled. -/
def activeOutOfRangeStrategy : SavedStrategy :=
  { id := "p7", mode := Mode.accumulate, strategyType := StrategyType.fixed,
    type := SType.fixed, frequency := some Frequency.weekly,
    amountPerPurchase := 100, btcHoldings := none, active := true,
    nextExecutionAt := some 5, lastExecutionAt := none,
    activeRiskStart := some 60, activeRiskEnd := some 50,
    dynamicStepInterval := none, dynamicMultiplierPct := none,
    executions := some [], asset_id := some "BTC" }

/-- C4 counterexample: a fixed strategy skipped because `active` is
false (here also out of range) keeps its previously scheduled
`nextExecutionAt`; Pass A only clears it for active strategies with a
frequency, so the claimed "cleared for every skipped fixed strategy"
fails. -/
theorem frequencyEngine_skip_retention_counterexample :
    pausedOutOfRangeStrategy.type = SType.fixed ∧
    pausedOutOfRangeStrategy.active = false ∧
    ¬ ((getActiveRiskBounds pausedOutOfRangeStrategy).1 ≤ outOfRangeCtx.riskValue ∧
       outOfRangeCtx.riskValue ≤ (getActiveRiskBounds pausedOutOfRangeStrategy).2) ∧
    pausedOutOfRangeStrategy.nextExecutionAt = some 5 ∧
    (frequencyEngineStep outOfRangeCtx pausedOutOfRangeStrategy).nextExecutionAt = some 5 := by
  refine ⟨rfl, rfl, ?_, rfl, ?_⟩
  · norm_num [getActiveRiskBounds, pausedOutOfRangeStrategy, outOfRangeCtx]
  · simp [frequencyEngineStep, pausedOutOfRangeStrategy]

/-- C4 (amended): in Pass A, an active fixed strategy with a frequency
whose current risk is outside the normalized active range has its
`nextExecutionAt` cleared; but a fixed strategy skipped because it is
inactive (or has no frequency) is returned entirely unchanged, so its
`nextExecutionAt` is retained. -/
theorem frequencyEngine_clearing (ctx : EngineCtx) (p : SavedStrategy)
    (hfix : p.type = SType.fixed) :
    (p.active = true → p.frequency ≠ none →
      ¬ ((getActiveRiskBounds p).1 ≤ ctx.riskValue ∧
         ctx.riskValue ≤ (getActiveRiskBounds p).2) →
      (frequencyEngineStep ctx p).nextExecutionAt = none) ∧
    ((p.active = false ∨ p.frequency = none) → frequencyEngineStep ctx p = p) := by
  constructor
  · intro hact hfreq hout
    cases hne : p.nextExecutionAt with
    | none =>
      simp [frequencyEngineStep, hfix, hact, hfreq, hout, hne]
    | some t =>
      simp [frequencyEngineStep, hfix, hact, hfreq, hout, hne]
  · rintro (h | h)
    · simp [frequencyEngineStep, hfix, h]
    · simp [frequencyEngineStep, hfix, h]

/-- Witness for C4 (amended): out of range, the active strategy is
cleared while the paused one is untouched. -/
theorem frequencyEngine_clearing_witness :
    (frequencyEngineStep outOfRangeCtx activeOutOfRangeStrategy).nextExecutionAt = none ∧
    frequencyEngineStep outOfRangeCtx pausedOutOfRangeStrategy = pausedOutOfRangeStrategy :=
  ⟨(frequencyEngine_clearing outOfRangeCtx activeOutOfRangeStrategy rfl).1 rfl
     (by simp [activeOutOfRangeStrategy])
     (by norm_num [getActiveRiskBounds, activeOutOfRangeStrategy, outOfRangeCtx]),
   (frequencyEngine_clearing outOfRangeCtx pausedOutOfRangeStrategy rfl).2 (Or.inl rfl)⟩

/-- C7 counterexample: an active, out-of-range fixed strategy whose
`nextExecutionAt` (5) is strictly after `now` (0) is *not* left
unchanged by Pass A — its `nextExecutionAt` is cleared — refuting the
claim that a future `nextExecutionAt` always leaves the strategy
unchanged. -/
theorem frequencyEngine_future_changed_counterexample :
    activeOutOfRangeStrategy.nextExecutionAt = some 5 ∧
    outOfRangeCtx.now < 5 ∧
    frequencyEngineStep outOfRangeCtx activeOutOfRangeStrategy ≠ activeOutOfRangeStrategy := by
  refine ⟨rfl, by norm_num [outOfRangeCtx], ?_⟩
  intro h
  have hstep : (frequencyEngineStep outOfRangeCtx activeOutOfRangeStrategy).nextExecutionAt
      = none := by
    norm_num [frequencyEngineStep, activeOutOfRangeStrategy, outOfRangeCtx,
      getActiveRiskBounds]
    simp
  rw [h] at hstep
  simp [activeOutOfRangeStrategy] at hstep

/-- C7 (amended): Pass A appends no Execution to a fixed strategy whose
`nextExecutionAt` is strictly in the future — in particular a second
call in the same tick appends nothing either — and leaves the strategy
entirely unchanged whenever the current risk is inside its active range
(out of range, the only possible change is clearing `nextExecutionAt`). -/
theorem frequencyEngine_future_next (ctx : EngineCtx) (p : SavedStrategy) (t : ℚ)
    (hfix : p.type = SType.fixed) (hne : p.nextExecutionAt = some t)
    (hfut : ctx.now < t) :
    (frequencyEngineStep ctx p).executions = p.executions ∧
    ((getActiveRiskBounds p).1 ≤ ctx.riskValue ∧
        ctx.riskValue ≤ (getActiveRiskBounds p).2 →
      frequencyEngineStep ctx p = p) ∧
    (frequencyEngineStep ctx (frequencyEngineStep ctx p)).executions = p.executions := by
  rcases freq_step_future ctx p t hfix hne hfut with h | ⟨hout, hact, hfreq, h⟩
  · rw [h]
    exact ⟨rfl, fun _ => rfl, by rw [h]⟩
  · rw [h]
    refine ⟨rfl, fun hin => absurd hin hout, ?_⟩
    set q : SavedStrategy := { p with nextExecutionAt := none } with hqdef
    have hqtype : q.type = SType.fixed := hfix
    have hqact : q.active = true := hact
    have hqfreq : q.frequency ≠ none := hfreq
    have hqout : ¬ ((getActiveRiskBounds q).1 ≤ ctx.riskValue ∧
        ctx.riskValue ≤ (getActiveRiskBounds q).2) := hout
    have hqne : q.nextExecutionAt = none := rfl
    have hq : frequencyEngineStep ctx q = q := by
      simp [frequencyEngineStep, hqtype, hqact, hqfreq, hqout, hqne]
    rw [hq]

/-- The tick context used by in-range samples: risk 55, `now = 0`. -/
def inRangeCtx : EngineCtx :=
  { riskValue := 55, priceAt := fun _ _ => 100000, now := 0,
    nowIso := "2026-10-11T00:00:00.000Z" }

/-- An active fixed strategy, in range at risk 55, scheduled for the
future. -/
def scheduledInRangeStrategy : SavedStrategy :=
  { id := "p7w", mode := Mode.accumulate, strategyType := StrategyType.fixed,
    type := SType.fixed, frequency := some Frequency.weekly,
    amountPerPurchase := 100, btcHoldings := none, active := true,
    nextExecutionAt := some 5, lastExecutionAt := none,
    activeRiskStart := some 60, activeRiskEnd := some 50,
    dynamicStepInterval := none, dynamicMultiplierPct := none,
    executions := some [], asset_id := some "BTC" }

/-- Witness for C7 (amended): in range with a future `nextExecutionAt`,
the strategy is wholly unchanged. -/
theorem frequencyEngine_future_next_witness :
    scheduledInRangeStrategy.nextExecutionAt = some 5 ∧ inRangeCtx.now < 5 ∧
    frequencyEngineStep inRangeCtx scheduledInRangeStrategy = scheduledInRangeStrategy :=
  ⟨rfl, by norm_num [inRangeCtx],
   (frequencyEngine_future_next inRangeCtx scheduledInRangeStrategy 5 rfl rfl
      (by norm_num [inRangeCtx])).2.1
     (by norm_num [getActiveRiskBounds, scheduledInRangeStrategy, inRangeCtx])⟩

/-- C9: in Pass A, a due distribute fixed strategy whose remaining asset
(cap minus the total already sold) is below the asset amount needed at
the current price is skipped for the tick: no Execution is appended and
no field — in particular `nextExecutionAt` — changes. -/
theorem frequencyEngine_insufficient_asset_skip (ctx : EngineCtx) (p : SavedStrategy)
    (hfix : p.type = SType.fixed) (hact : p.active = true)
    (hfreq : p.frequency ≠ none) (hmode : p.mode = Mode.distribute)
    (hin : (getActiveRiskBounds p).1 ≤ ctx.riskValue ∧
      ctx.riskValue ≤ (getActiveRiskBounds p).2)
    (hdue : p.nextExecutionAt = none ∨
      ∃ t, p.nextExecutionAt = some t ∧ t ≤ ctx.now)
    (hamt : 0 < p.amountPerPurchase)
    (hprice : 0 < ctx.priceAt (p.asset_id.getD "BTC") ctx.riskValue)
    (hinsuff : p.btcHoldings.getD 0 - sumBtc (p.executions.getD []) <
      p.amountPerPurchase / ctx.priceAt (p.asset_id.getD "BTC") ctx.riskValue) :
    frequencyEngineStep ctx p = p := by
  have hmax : max 0 (p.btcHoldings.getD 0 - sumBtc (p.executions.getD [])) <
      p.amountPerPurchase / ctx.priceAt (p.asset_id.getD "BTC") ctx.riskValue :=
    max_lt (div_pos hamt hprice) hinsuff
  rcases hdue with hne | ⟨t, hne, hle⟩
  · simp [frequencyEngineStep, hfix, hact, hfreq, hmode, hin, hne, hprice, hmax]
  · simp [frequencyEngineStep, hfix, hact, hfreq, hmode, hin, hne, hle, hprice, hmax]

/-- A due distribute fixed strategy whose cap leaves too little asset at
the current price (needs `1/100`, has `1/1000`). -/
def insufficientAssetStrategy : SavedStrategy :=
  { id := "p9", mode := Mode.distribute, strategyType := StrategyType.fixed,
    type := SType.fixed, frequency := some Frequency.weekly,
    amountPerPurchase := 1000, btcHoldings := some (1/1000), active := true,
    nextExecutionAt := none, lastExecutionAt := none,
    activeRiskStart := some 50, activeRiskEnd := some 100,
    dynamicStepInterval := none, dynamicMultiplierPct := none,
    executions := some [], asset_id := some "BTC" }

/-- Witness for C9 at price 100000: the strategy is left untouched. -/
theorem frequencyEngine_insufficient_asset_skip_witness :
    insufficientAssetStrategy.mode = Mode.distribute ∧
    insufficientAssetStrategy.btcHoldings.getD 0 -
        sumBtc (insufficientAssetStrategy.executions.getD []) <
      insufficientAssetStrategy.amountPerPurchase /
        inRangeCtx.priceAt (insufficientAssetStrategy.asset_id.getD "BTC")
          inRangeCtx.riskValue ∧
    frequencyEngineStep inRangeCtx insufficientAssetStrategy = insufficientAssetStrategy :=
  ⟨rfl, by norm_num [insufficientAssetStrategy, inRangeCtx, sumBtc],
   frequencyEngine_insufficient_asset_skip inRangeCtx insufficientAssetStrategy rfl rfl
     (by simp [insufficientAssetStrategy]) rfl
     (by norm_num [getActiveRiskBounds, insufficientAssetStrategy, inRangeCtx])
     (Or.inl rfl)
     (by norm_num [insufficientAssetStrategy])
     (by norm_num [insufficientAssetStrategy, inRangeCtx])
     (by norm_num [insufficientAssetStrategy, inRangeCtx, sumBtc])⟩

/-- Executions built by Pass A satisfy the price invariant. -/
theorem mkFreqExec_inv (ctx : EngineCtx) (p : SavedStrategy) :
    execPriceInv (mkFreqExec ctx p) := rfl

/-- Pass A either leaves a strategy's execution list unchanged or
appends exactly the one record `mkFreqExec ctx p`. -/
theorem freq_step_execs (ctx : EngineCtx) (p : SavedStrategy) :
    (frequencyEngineStep ctx p).executions = p.executions ∨
    (frequencyEngineStep ctx p).executions =
      some (p.executions.getD [] ++ [mkFreqExec ctx p]) := by
  simp only [frequencyEngineStep]
  split_ifs <;> first | exact Or.inl rfl | exact Or.inr rfl

/-- Pass B either leaves a strategy's execution list unchanged or
appends `mkLevelExec` records for some list of levels. -/
theorem lce_step_execs (ctx : EngineCtx) (p : SavedStrategy) :
    (levelCrossingEngineStep ctx p).executions = p.executions ∨
    ∃ ls : List ℚ, (levelCrossingEngineStep ctx p).executions =
      some (p.executions.getD [] ++ ls.map (mkLevelExec ctx p)) := by
  simp only [levelCrossingEngineStep]
  split_ifs <;>
    first
      | exact Or.inl rfl
      | exact Or.inr ⟨lceCrossed ctx p, by rw [buildNewExecs_eq_append]; simp⟩

/-- C8: every execution record either engine pass appends satisfies
`assetAmount = amountFiat / pricePerUnit` when `pricePerUnit > 0` and
`assetAmount = 0` otherwise — the division by the price is guarded in
both passes. -/
theorem engine_execution_price_invariant (ctx : EngineCtx) (p : SavedStrategy)
    (e : MockExecution) :
    (e ∈ (frequencyEngineStep ctx p).executions.getD [] →
      e ∈ p.executions.getD [] ∨ execPriceInv e) ∧
    (e ∈ (levelCrossingEngineStep ctx p).executions.getD [] →
      e ∈ p.executions.getD [] ∨ execPriceInv e) := by
  constructor
  · intro he
    rcases freq_step_execs ctx p with h | h
    · rw [h] at he; exact Or.inl he
    · rw [h] at he
      simp only [Option.getD_some, List.mem_append, List.mem_singleton] at he
      rcases he with he | he
      · exact Or.inl he
      · exact Or.inr (he ▸ mkFreqExec_inv ctx p)
  · intro he
    rcases lce_step_execs ctx p with h | ⟨ls, h⟩
    · rw [h] at he; exact Or.inl he
    · rw [h] at he
      simp only [Option.getD_some, List.mem_append, List.mem_map] at he
      rcases he with he | ⟨L, _, he⟩
      · exact Or.inl he
      · exact Or.inr (he ▸ mkLevelExec_inv ctx p L)

/-- An active accumulate fixed strategy that is due and in range at risk
55: Pass A fires it. -/
def fireStrategy : SavedStrategy :=
  { id := "p8", mode := Mode.accumulate, strategyType := StrategyType.fixed,
    type := SType.fixed, frequency := some Frequency.weekly,
    amountPerPurchase := 100, btcHoldings := none, active := true,
    nextExecutionAt := none, lastExecutionAt := none,
    activeRiskStart := some 60, activeRiskEnd := some 50,
    dynamicStepInterval := none, dynamicMultiplierPct := none,
    executions := some [], asset_id := some "BTC" }

/-- Pass A fires `fireStrategy` in `inRangeCtx`, appending exactly
`mkFreqExec`. -/
theorem fireStrategy_step_executions :
    (frequencyEngineStep inRangeCtx fireStrategy).executions =
      some (fireStrategy.executions.getD [] ++ [mkFreqExec inRangeCtx fireStrategy]) := by
  norm_num [frequencyEngineStep, fireStrategy, inRangeCtx, getActiveRiskBounds]
  simp [sumBtc]

/-- Witness for C8: the record Pass A appends to `fireStrategy`
satisfies the price invariant. -/
theorem engine_execution_price_invariant_witness :
    mkFreqExec inRangeCtx fireStrategy ∈
      (frequencyEngineStep inRangeCtx fireStrategy).executions.getD [] ∧
    (mkFreqExec inRangeCtx fireStrategy ∈ fireStrategy.executions.getD [] ∨
      execPriceInv (mkFreqExec inRangeCtx fireStrategy)) :=
  ⟨by rw [fireStrategy_step_executions]; simp,
   (engine_execution_price_invariant inRangeCtx fireStrategy _).1
     (by rw [fireStrategy_step_executions]; simp)⟩

/-- An accumulate scaled strategy with range 40 to 70, step 10, and no
prior executions: unfilled levels 70, 60, 50, 40. -/
def multiLevelStrategy : SavedStrategy :=
  { id := "p5", mode := Mode.accumulate, strategyType := StrategyType.dynamic,
    type := SType.scaled, frequency := none, amountPerPurchase := 1000,
    btcHoldings := none, active := true, nextExecutionAt := none,
    lastExecutionAt := none, activeRiskStart := some 70, activeRiskEnd := some 40,
    dynamicStepInterval := some 10, dynamicMultiplierPct := some 25,
    executions := some [], asset_id := some "BTC" }

/-- Normalized bounds of the multi-level sample. -/
theorem multiLevel_bounds : getActiveRiskBounds multiLevelStrategy = (40, 70) := by
  norm_num [getActiveRiskBounds, multiLevelStrategy]

/-- The descending level loop of the multi-level sample. -/
theorem multiLevel_down : levelsDown 70 40 10 = [70, 60, 50, 40] := by
  norm_num [levelsDown, show List.range (Int.toNat 3 + 1) = [0, 1, 2, 3] from rfl]

/-- Planned levels of the multi-level sample. -/
theorem multiLevel_levels : getStrategyLevels multiLevelStrategy = [70, 60, 50, 40] := by
  simp only [getStrategyLevels, multiLevel_bounds,
    show multiLevelStrategy.mode = Mode.accumulate from rfl,
    show multiLevelStrategy.dynamicStepInterval = some 10 from rfl, Option.getD_some]
  norm_num [multiLevel_down]

/-- At risk 40 every planned level of the multi-level sample is crossed
and unfilled. -/
theorem multiLevel_crossed (priceAt : String → ℚ → ℚ) (now : ℚ) (iso : String) :
    lceCrossed ⟨40, priceAt, now, iso⟩ multiLevelStrategy = [70, 60, 50, 40] := by
  simp only [lceCrossed, multiLevel_levels,
    show multiLevelStrategy.mode = Mode.accumulate from rfl,
    show multiLevelStrategy.executions = some [] from rfl, Option.getD_some, isFilled]
  norm_num [List.filter]

/-- C5: with unfilled levels 70, 60, 50, 40 and current risk 40, one
Pass B tick appends exactly four executions, one per crossed level, each
recording `riskAtExecution` equal to its own level and `pricePerUnit`
equal to the price evaluated at that level — not at the current risk —
for every pricing function. -/
theorem levelCrossingEngine_multi_level (priceAt : String → ℚ → ℚ) (now : ℚ) (iso : String) :
    ((levelCrossingEngineStep ⟨40, priceAt, now, iso⟩ multiLevelStrategy).executions.getD []).map
        (fun e => (e.riskAtExecution, e.pricePerBtc)) =
      [(70, priceAt "BTC" 70), (60, priceAt "BTC" 60), (50, priceAt "BTC" 50),
       (40, priceAt "BTC" 40)] := by
  have hstep : levelCrossingEngineStep ⟨40, priceAt, now, iso⟩ multiLevelStrategy =
      { multiLevelStrategy with
          executions := some (([70, 60, 50, 40] : List ℚ).map
            (mkLevelExec ⟨40, priceAt, now, iso⟩ multiLevelStrategy)) } := by
    simp only [levelCrossingEngineStep, multiLevel_crossed, buildNewExecs_eq_append]
    norm_num [multiLevelStrategy, getActiveRiskBounds]
    exact fun h _ => nomatch h
  rw [hstep]
  simp [mkLevelExec, getAmountAtRisk,
    show multiLevelStrategy.asset_id = some "BTC" from rfl]

/-- Propositional form of the mode disequality, for rewriting. -/
theorem Mode_distribute_ne_accumulate : (Mode.distribute = Mode.accumulate) = False :=
  eq_false (fun h => nomatch h)

/-- A distribute scaled strategy with asset cap `0.01` whose two levels
would each sell `0.01` of the asset at price 100000. -/
def overshootStrategy : SavedStrategy :=
  { id := "p1", mode := Mode.distribute, strategyType := StrategyType.dynamic,
    type := SType.scaled, frequency := none, amountPerPurchase := 1000,
    btcHoldings := some (1/100), active := true, nextExecutionAt := none,
    lastExecutionAt := none, activeRiskStart := some 50, activeRiskEnd := some 60,
    dynamicStepInterval := some 10, dynamicMultiplierPct := some 0,
    executions := some [], asset_id := some "BTC" }

/-- The tick context of the overshoot scenario: risk 60, price 100000. -/
def overshootCtx : EngineCtx :=
  { riskValue := 60, priceAt := fun _ _ => 100000, now := 0,
    nowIso := "2026-10-11T00:00:00.000Z" }

/-- Normalized bounds of the overshoot sample. -/
theorem overshoot_bounds : getActiveRiskBounds overshootStrategy = (50, 60) := by
  norm_num [getActiveRiskBounds, overshootStrategy, Mode_distribute_ne_accumulate]

/-- The ascending level loop of the overshoot sample. -/
theorem overshoot_up : levelsUp 50 60 10 = [50, 60] := by
  have h1 : ⌊((60 : ℚ) - 50) / 10⌋.toNat + 1 = 2 := by
    norm_num [show Int.toNat 1 = 1 from rfl]
  rw [levelsUp, if_pos (by norm_num), h1]
  norm_num [show List.range 2 = [0, 1] from rfl]

/-- Planned levels of the overshoot sample. -/
theorem overshoot_levels : getStrategyLevels overshootStrategy = [50, 60] := by
  simp only [getStrategyLevels, overshoot_bounds,
    show overshootStrategy.mode = Mode.distribute from rfl,
    Mode_distribute_ne_accumulate,
    show overshootStrategy.dynamicStepInterval = some 10 from rfl, Option.getD_some]
  norm_num [overshoot_up]

/-- At risk 60 both planned levels of the overshoot sample are crossed
and unfilled. -/
theorem overshoot_crossed :
    lceCrossed overshootCtx overshootStrategy = [50, 60] := by
  simp only [lceCrossed, overshoot_levels,
    show overshootStrategy.mode = Mode.distribute from rfl,
    Mode_distribute_ne_accumulate,
    show overshootStrategy.executions = some [] from rfl, Option.getD_some, isFilled,
    show overshootCtx.riskValue = 60 from rfl]
  norm_num [List.filter]

/-- C1 (the code evaluated at the failing input): with asset cap `0.01`
and two crossed levels each selling `0.01`, Pass B appends *both*
executions in one tick, taking cumulative sold asset to `0.02 > 0.01` —
the loop's break guard `Math.max(0, cap - soldSoFar - btcAmount) < 0`
can never hold, so the walk never stops at the cap as the claim (and
spec P6) require. -/
theorem levelCrossing_cap_overshoot :
    overshootStrategy.btcHoldings = some (1/100) ∧
    ((levelCrossingEngineStep overshootCtx overshootStrategy).executions.getD []).map
        (fun e => (e.riskAtExecution, e.btcAmount)) = [(50, 1/100), (60, 1/100)] ∧
    sumBtc ((levelCrossingEngineStep overshootCtx overshootStrategy).executions.getD []) =
      1/50 ∧
    (1/100 : ℚ) < 1/50 := by
  have hstep : levelCrossingEngineStep overshootCtx overshootStrategy =
      { overshootStrategy with
          executions := some (([50, 60] : List ℚ).map
            (mkLevelExec overshootCtx overshootStrategy)) } := by
    simp only [levelCrossingEngineStep, overshoot_crossed, buildNewExecs_eq_append]
    norm_num [overshootStrategy, overshootCtx, getActiveRiskBounds, sumBtc,
      Mode_distribute_ne_accumulate]
  refine ⟨rfl, ?_, ?_, by norm_num⟩
  · rw [hstep]
    norm_num [mkLevelExec, getAmountAtRisk, overshootStrategy, overshootCtx,
      getActiveRiskBounds, jsRound, sumBtc, Mode_distribute_ne_accumulate,
      show Int.toNat 0 = 0 from rfl, show Int.toNat 1 = 1 from rfl]
  · rw [hstep]
    norm_num [mkLevelExec, getAmountAtRisk, overshootStrategy, overshootCtx,
      getActiveRiskBounds, jsRound, sumBtc, Mode_distribute_ne_accumulate,
      show Int.toNat 0 = 0 from rfl, show Int.toNat 1 = 1 from rfl]


/-- The filled-level predicate distributes over appended execution
lists. -/
theorem isFilled_append (levels : List ℚ) (xs ys : List MockExecution) (L : ℚ) :
    isFilled levels (xs ++ ys) L = (isFilled levels xs L || isFilled levels ys L) := by
  simp [isFilled, List.any_append]

/-- An execution whose nearest level is `L` marks `L` filled. -/
theorem isFilled_of_mem (levels : List ℚ) (execs : List MockExecution) (L : ℚ)
    (e : MockExecution) (he : e ∈ execs)
    (hce : closestLevel levels e.riskAtExecution = L) :
    isFilled levels execs L = true := by
  simp only [isFilled, List.any_eq_true]
  exact ⟨e, he, by simp [hce]⟩

/-- Updating only `executions` does not change the planned levels. -/
theorem getStrategyLevels_update_execs (p : SavedStrategy) (v : Option (List MockExecution)) :
    getStrategyLevels { p with executions := v } = getStrategyLevels p := rfl

/-- Updating only `executions` does not change the active bounds. -/
theorem getActiveRiskBounds_update_execs (p : SavedStrategy) (v : Option (List MockExecution)) :
    getActiveRiskBounds { p with executions := v } = getActiveRiskBounds p := rfl

/-- Mode-uniform description of the `crossedNotExecuted` list. -/
theorem lceCrossed_eq (ctx : EngineCtx) (p : SavedStrategy) :
    lceCrossed ctx p = (getStrategyLevels p).filter
      (fun L => (if p.mode = Mode.accumulate then decide (ctx.riskValue ≤ L)
                 else decide (L ≤ ctx.riskValue)) &&
        ! isFilled (getStrategyLevels p) (p.executions.getD []) L) := by
  by_cases hm : p.mode = Mode.accumulate
  · simp [lceCrossed, hm]
  · simp [lceCrossed, hm]

/-- Pass B on a strategy either changes nothing or — when the strategy
is active, scaled and in range — appends exactly one `mkLevelExec`
record per crossed unfilled level (the loop's break guard never fires). -/
theorem lce_step_cases (ctx : EngineCtx) (p : SavedStrategy) :
    levelCrossingEngineStep ctx p = p ∨
    (p.type = SType.scaled ∧ p.active = true ∧
     ((getActiveRiskBounds p).1 ≤ ctx.riskValue ∧
      ctx.riskValue ≤ (getActiveRiskBounds p).2) ∧
     levelCrossingEngineStep ctx p =
       { p with
           executions := some (p.executions.getD [] ++
             (lceCrossed ctx p).map (mkLevelExec ctx p)) }) := by
  simp only [levelCrossingEngineStep]
  split_ifs with h1 h2 h3 h4 h5 <;>
    first
      | exact Or.inl rfl
      | (refine Or.inr ?_
         push_neg at h1
         refine ⟨h1.1, h1.2, ?_, ?_⟩
         · first | exact not_not.mp h2 | exact h2
         · rw [buildNewExecs_eq_append]
           simp)

/-- After Pass B has appended executions for every crossed unfilled
level, no crossed level is unfilled: each new record sits exactly at its
level, so nearest-level matching marks that level filled. -/
theorem lceCrossed_after (ctx : EngineCtx) (p : SavedStrategy) :
    lceCrossed ctx
        { p with
            executions := some (p.executions.getD [] ++
              (lceCrossed ctx p).map (mkLevelExec ctx p)) } =
      [] := by
  simp only [lceCrossed_eq, getStrategyLevels_update_execs, Option.getD_some]
  rw [List.filter_eq_nil_iff]
  intro L hL hcon
  simp only [Bool.and_eq_true, Bool.not_eq_true'] at hcon
  obtain ⟨hdir, hnotfill⟩ := hcon
  by_cases hfill : isFilled (getStrategyLevels p) (p.executions.getD []) L = true
  · rw [isFilled_append, hfill] at hnotfill
    simp at hnotfill
  · have hfill' : isFilled (getStrategyLevels p) (p.executions.getD []) L = false := by
      simpa using hfill
    have hLc : L ∈ lceCrossed ctx p := by
      rw [lceCrossed_eq]
      exact List.mem_filter.mpr ⟨hL, by simp [hdir, hfill']⟩
    have hmk : mkLevelExec ctx p L ∈ (lceCrossed ctx p).map (mkLevelExec ctx p) :=
      List.mem_map.mpr ⟨L, hLc, rfl⟩
    have hnew : isFilled (getStrategyLevels p)
        (p.executions.getD [] ++ (lceCrossed ctx p).map (mkLevelExec ctx p)) L = true := by
      refine isFilled_of_mem _ _ _ (mkLevelExec ctx p L)
        (List.mem_append.mpr (Or.inr hmk)) ?_
      rw [mkLevelExec_risk]
      exact closestLevel_self (getStrategyLevels p) L hL
    rw [lceCrossed_eq ctx p] at hnew
    rw [hnew] at hnotfill
    cases hnotfill

/-- C10: for a strategy with positive level step, the Level-Crossing
Engine is idempotent at a fixed risk: a second application to its own
output appends nothing, because each appended execution records
`riskAtExecution` exactly equal to its level and is therefore matched
back to that level on the next pass. -/
theorem levelCrossingEngine_idempotent (ctx : EngineCtx) (p : SavedStrategy)
    (_hstep : 0 < p.dynamicStepInterval.getD 5) :
    levelCrossingEngineStep ctx (levelCrossingEngineStep ctx p) =
      levelCrossingEngineStep ctx p := by
  rcases lce_step_cases ctx p with h | ⟨htype, hact, hin, h⟩
  · rw [h, h]
  · rw [h]
    set q : SavedStrategy :=
      { p with
          executions := some (p.executions.getD [] ++
            (lceCrossed ctx p).map (mkLevelExec ctx p)) }
      with hqdef
    have hqtype : q.type = SType.scaled := by rw [hqdef]; exact htype
    have hqact : q.active = true := by rw [hqdef]; exact hact
    have hqin : (getActiveRiskBounds q).1 ≤ ctx.riskValue ∧
        ctx.riskValue ≤ (getActiveRiskBounds q).2 := by rw [hqdef]; exact hin
    have hqc : lceCrossed ctx q = [] := by rw [hqdef]; exact lceCrossed_after ctx p
    simp [levelCrossingEngineStep, hqtype, hqact, hqin, hqc]


/-- Witness for C10 at the multi-level sample in `inRangeCtx`. -/
theorem levelCrossingEngine_idempotent_witness :
    (0 : ℚ) < multiLevelStrategy.dynamicStepInterval.getD 5 ∧
    levelCrossingEngineStep inRangeCtx (levelCrossingEngineStep inRangeCtx multiLevelStrategy) =
      levelCrossingEngineStep inRangeCtx multiLevelStrategy :=
  ⟨by norm_num [multiLevelStrategy],
   levelCrossingEngine_idempotent inRangeCtx multiLevelStrategy
     (by norm_num [multiLevelStrategy])⟩

end CryptoSuperHub
